import Mathlib

/-!
Verification of the order-book liquidity walker in `src/main.py`.

The source is a small Python program that fetches order books from two
exchanges (Coinbase and Gemini) and, for a fixed trade size, walks the
book's price levels to compute the cost to buy / proceeds to sell that
size.  We embed the numeric core shallowly:

* Python floats are modelled as rationals (`ℚ`);
* `float(s)` on a decimal literal string is modelled by `parseFloat`,
  returning `Option ℚ` (`none` models a raised `ValueError`);
* the four `calculate_*` functions (lines 8-132 of `src/main.py`) are
  modelled as functions returning `Option (ℚ × ℚ)`, where `none` models
  an escaping exception from a malformed numeric field;
* the scheduling loop of `main()` (lines 190-202) is modelled as a
  function of the finite prefix of per-cycle outcomes.
-/

/-- Value of a decimal digit character; `none` for non-digits. -/
def digitVal (c : Char) : Option ℕ :=
  if c.isDigit then some (c.toNat - 48) else none

/-- Fractional part of a decimal literal: `parseFrac ['2', '5'] = 1/4`.
Fails on any non-digit character. -/
def parseFrac : List Char → Option ℚ
  | [] => some 0
  | c :: cs =>
    match digitVal c, parseFrac cs with
    | some d, some r => some (((d : ℚ) + r) / 10)
    | _, _ => none

/-- Digits of the integer part, accumulating left to right; stops at a
decimal point and delegates to `parseFrac`. -/
def parseNum : List Char → ℚ → Option ℚ
  | [], acc => some acc
  | c :: cs, acc =>
    if c = '.' then (parseFrac cs).map (fun f => acc + f)
    else
      match digitVal c with
      | some d => parseNum cs (acc * 10 + d)
      | none => none

/-- Model of Python `float(s)` on plain decimal literals: an optional
sign, decimal digits, and at most one decimal point (at least one digit
must be present).  Returns `none` (modelling `ValueError`) otherwise.
Exponent forms, infinities and surrounding whitespace are outside the
domain the program's inputs use and are not modelled. -/
def parseFloat (s : String) : Option ℚ :=
  match s.data with
  | [] => none
  | c :: cs =>
    if c = '-' then
      if cs.any Char.isDigit then (parseNum cs 0).map Neg.neg else none
    else if c = '+' then
      if cs.any Char.isDigit then parseNum cs 0 else none
    else
      if (c :: cs).any Char.isDigit then parseNum (c :: cs) 0 else none

/-- A normalized price level: price and quantity available at it. -/
structure PriceLevel where
  price : ℚ
  available_quantity : ℚ
deriving DecidableEq

/-- Result of walking a book: total value traded and quantity filled. -/
structure FillResult where
  total_value : ℚ
  filled_quantity : ℚ
deriving DecidableEq

/-- The shared loop body of the four `calculate_*` functions, over
already-normalized levels: for each level, if `remaining <= 0` break,
otherwise trade `min available remaining` at the level's price.
Returns the accumulated value and the remaining quantity. -/
def walkLevels : List PriceLevel → ℚ → ℚ → ℚ × ℚ
  | [], total, remaining => (total, remaining)
  | level :: rest, total, remaining =>
    if remaining ≤ 0 then (total, remaining)
    else
      walkLevels rest (total + min level.available_quantity remaining * level.price)
        (remaining - min level.available_quantity remaining)

/-- Walk a normalized book side: value accumulated and
`quantity - remaining` filled, exactly as each source function returns. -/
def fillLevels (levels : List PriceLevel) (quantity : ℚ) : FillResult :=
  let r := walkLevels levels 0 quantity
  { total_value := r.1, filled_quantity := quantity - r.2 }

/-- Sum of the available quantities of a book side (its depth). -/
def totalDepth (levels : List PriceLevel) : ℚ :=
  levels.foldr (fun l acc => l.available_quantity + acc) 0

/-- A raw Coinbase level `[price, size, num_orders]`: two numeric
strings and an order count. -/
abbrev CoinbaseRaw := String × String × ℤ

/-- A raw Gemini level: a record with `price` and `amount` fields. -/
structure GeminiRaw where
  price : String
  amount : String
deriving DecidableEq

/-- Normalization performed per level inside the Coinbase loops
(`src/main.py` lines 34-35): `price = float(price_str)`,
`available = float(size_str) * num_orders`. -/
def normalizeCoinbaseLevel (l : CoinbaseRaw) : Option PriceLevel :=
  match parseFloat l.1, parseFloat l.2.1 with
  | some price, some size => some { price := price, available_quantity := size * (l.2.2 : ℚ) }
  | _, _ => none

/-- Normalization performed per level inside the Gemini loops
(`src/main.py` lines 96-97): `price = float(order['price'])`,
`available = float(order['amount'])`. -/
def normalizeGeminiLevel (o : GeminiRaw) : Option PriceLevel :=
  match parseFloat o.price, parseFloat o.amount with
  | some price, some available => some { price := price, available_quantity := available }
  | _, _ => none

/-- Normalize a whole Coinbase side; `none` if any level fails. -/
def normalizeCoinbase : List CoinbaseRaw → Option (List PriceLevel)
  | [] => some []
  | o :: rest =>
    match normalizeCoinbaseLevel o, normalizeCoinbase rest with
    | some l, some ls => some (l :: ls)
    | _, _ => none

/-- Normalize a whole Gemini side; `none` if any level fails. -/
def normalizeGemini : List GeminiRaw → Option (List PriceLevel)
  | [] => some []
  | o :: rest =>
    match normalizeGeminiLevel o, normalizeGemini rest with
    | some l, some ls => some (l :: ls)
    | _, _ => none

/-- Loop of `calculate_coinbase_buy_cost` (`src/main.py` lines 30-40):
unpack `[price_str, size_str, num_orders]`, break once `remaining <= 0`,
parse the strings (a `ValueError` escapes as `none`), trade
`min available remaining`. -/
def coinbaseBuyLoop : List CoinbaseRaw → ℚ → ℚ → Option (ℚ × ℚ)
  | [], total_cost, remaining => some (total_cost, remaining)
  | (price_str, size_str, num_orders) :: rest, total_cost, remaining =>
    if remaining ≤ 0 then some (total_cost, remaining)
    else
      match parseFloat price_str, parseFloat size_str with
      | some price, some size =>
        coinbaseBuyLoop rest
          (total_cost + min (size * (num_orders : ℚ)) remaining * price)
          (remaining - min (size * (num_orders : ℚ)) remaining)
      | _, _ => none

/-- `calculate_coinbase_buy_cost(orders, quantity)` (lines 8-44):
returns `(total_cost, quantity - remaining)`. -/
def calculate_coinbase_buy_cost (orders : List CoinbaseRaw) (quantity : ℚ) :
    Option (ℚ × ℚ) :=
  (coinbaseBuyLoop orders 0 quantity).map (fun r => (r.1, quantity - r.2))

/-- Loop of `calculate_coinbase_sell_revenue` (lines 55-65), identical in
structure to the buy loop. -/
def coinbaseSellLoop : List CoinbaseRaw → ℚ → ℚ → Option (ℚ × ℚ)
  | [], total_revenue, remaining => some (total_revenue, remaining)
  | (price_str, size_str, num_orders) :: rest, total_revenue, remaining =>
    if remaining ≤ 0 then some (total_revenue, remaining)
    else
      match parseFloat price_str, parseFloat size_str with
      | some price, some size =>
        coinbaseSellLoop rest
          (total_revenue + min (size * (num_orders : ℚ)) remaining * price)
          (remaining - min (size * (num_orders : ℚ)) remaining)
      | _, _ => none

/-- `calculate_coinbase_sell_revenue(orders, quantity)` (lines 46-69). -/
def calculate_coinbase_sell_revenue (orders : List CoinbaseRaw) (quantity : ℚ) :
    Option (ℚ × ℚ) :=
  (coinbaseSellLoop orders 0 quantity).map (fun r => (r.1, quantity - r.2))

/-- Loop of `calculate_gemini_buy_cost` (lines 92-102): read the
`price` and `amount` fields, break once `remaining <= 0`, trade
`min available remaining`. -/
def geminiBuyLoop : List GeminiRaw → ℚ → ℚ → Option (ℚ × ℚ)
  | [], total_cost, remaining => some (total_cost, remaining)
  | order :: rest, total_cost, remaining =>
    if remaining ≤ 0 then some (total_cost, remaining)
    else
      match parseFloat order.price, parseFloat order.amount with
      | some price, some available =>
        geminiBuyLoop rest (total_cost + min available remaining * price)
          (remaining - min available remaining)
      | _, _ => none

/-- `calculate_gemini_buy_cost(orders, quantity)` (lines 71-106). -/
def calculate_gemini_buy_cost (orders : List GeminiRaw) (quantity : ℚ) :
    Option (ℚ × ℚ) :=
  (geminiBuyLoop orders 0 quantity).map (fun r => (r.1, quantity - r.2))

/-- Loop of `calculate_gemini_sell_revenue` (lines 118-128), identical in
structure to the Gemini buy loop. -/
def geminiSellLoop : List GeminiRaw → ℚ → ℚ → Option (ℚ × ℚ)
  | [], total_revenue, remaining => some (total_revenue, remaining)
  | order :: rest, total_revenue, remaining =>
    if remaining ≤ 0 then some (total_revenue, remaining)
    else
      match parseFloat order.price, parseFloat order.amount with
      | some price, some available =>
        geminiSellLoop rest (total_revenue + min available remaining * price)
          (remaining - min available remaining)
      | _, _ => none

/-- `calculate_gemini_sell_revenue(orders, quantity)` (lines 108-132). -/
def calculate_gemini_sell_revenue (orders : List GeminiRaw) (quantity : ℚ) :
    Option (ℚ × ℚ) :=
  (geminiSellLoop orders 0 quantity).map (fun r => (r.1, quantity - r.2))

/-- Outcome of one cycle body (`analyze_prices(); sleep`) inside the
`while True` of `main()` (lines 194-197): it either completes, raises
`KeyboardInterrupt`, or raises some other exception. -/
inductive CycleOutcome
  | ok
  | keyboardInterrupt
  | otherError
deriving DecidableEq

/-- How `main()` left its `try` block. -/
inductive LoopExit
  | stoppedByUser
  | errorLogged
  | stillRunning
deriving DecidableEq

/-- Model of `main()` (lines 190-202): the `try` block wraps the whole
`while True` loop, with `except KeyboardInterrupt` printing a goodbye
and `except Exception` logging the error; either handler falls off the
end of `main`.  The argument lists the outcomes of successive cycle
bodies; the result is how the loop exited and how many cycles completed
(an exhausted finite prefix counts as `stillRunning`). -/
def mainLoop : List CycleOutcome → LoopExit × ℕ
  | [] => (LoopExit.stillRunning, 0)
  | CycleOutcome.ok :: rest =>
    let r := mainLoop rest
    (r.1, r.2 + 1)
  | CycleOutcome.keyboardInterrupt :: _ => (LoopExit.stoppedByUser, 0)
  | CycleOutcome.otherError :: _ => (LoopExit.errorLogged, 0)

/-! ### Basic walker lemmas -/

theorem walkLevels_nil (t r : ℚ) : walkLevels [] t r = (t, r) := rfl

theorem walkLevels_cons (l : PriceLevel) (rest : List PriceLevel) (t r : ℚ) :
    walkLevels (l :: rest) t r =
      if r ≤ 0 then (t, r)
      else
        walkLevels rest (t + min l.available_quantity r * l.price)
          (r - min l.available_quantity r) := rfl

theorem totalDepth_nil : totalDepth [] = 0 := rfl

theorem totalDepth_cons (l : PriceLevel) (ls : List PriceLevel) :
    totalDepth (l :: ls) = l.available_quantity + totalDepth ls := rfl

theorem totalDepth_nonneg (ls : List PriceLevel)
    (h : ∀ l ∈ ls, 0 ≤ l.available_quantity) : 0 ≤ totalDepth ls := by
  induction ls with
  | nil => simp [totalDepth_nil]
  | cons l rest ih =>
    rw [totalDepth_cons]
    have h1 := h l (List.mem_cons_self l rest)
    have h2 := ih fun x hx => h x (List.mem_cons_of_mem l hx)
    linarith

/-- A walk that starts with nothing remaining returns immediately. -/
theorem walkLevels_zero_remaining (ls : List PriceLevel) (t : ℚ) :
    walkLevels ls t 0 = (t, 0) := by
  cases ls with
  | nil => rfl
  | cons l rest => rw [walkLevels_cons]; simp

/-- The remaining quantity after a walk stays between `0` and its
starting value, provided every level offers a non-negative quantity. -/
theorem walkLevels_snd_bounds (ls : List PriceLevel) (t r : ℚ)
    (hnn : ∀ l ∈ ls, 0 ≤ l.available_quantity) (hr : 0 ≤ r) :
    0 ≤ (walkLevels ls t r).2 ∧ (walkLevels ls t r).2 ≤ r := by
  induction ls generalizing t r with
  | nil => exact ⟨hr, le_refl r⟩
  | cons l rest ih =>
    rw [walkLevels_cons]
    split_ifs with h
    · exact ⟨hr, le_refl r⟩
    · have ha := hnn l (List.mem_cons_self l rest)
      have hr0 : 0 < r := lt_of_not_le h
      have htr0 : 0 ≤ min l.available_quantity r := le_min ha hr0.le
      have htr1 : min l.available_quantity r ≤ r := min_le_right _ _
      obtain ⟨h1, h2⟩ := ih (t + min l.available_quantity r * l.price)
        (r - min l.available_quantity r)
        (fun x hx => hnn x (List.mem_cons_of_mem l hx)) (by linarith)
      exact ⟨h1, by linarith⟩

/-- If the book is at least as deep as the remaining quantity, the walk
consumes it completely. -/
theorem walkLevels_snd_eq_zero (ls : List PriceLevel) (t r : ℚ)
    (hr : 0 ≤ r) (hd : r ≤ totalDepth ls) :
    (walkLevels ls t r).2 = 0 := by
  induction ls generalizing t r with
  | nil =>
    rw [walkLevels_nil]
    rw [totalDepth_nil] at hd
    exact le_antisymm hd hr
  | cons l rest ih =>
    rw [walkLevels_cons]
    split_ifs with h
    · exact le_antisymm h hr
    · rw [totalDepth_cons] at hd
      rcases le_total l.available_quantity r with hc | hc
      · rw [min_eq_left hc]
        exact ih _ _ (by linarith) (by linarith)
      · rw [min_eq_right hc, sub_self, walkLevels_zero_remaining]

/-- The walk can consume at most the book's total depth. -/
theorem walkLevels_snd_ge (ls : List PriceLevel) (t r : ℚ)
    (hnn : ∀ l ∈ ls, 0 ≤ l.available_quantity) (hr : 0 ≤ r) :
    r - totalDepth ls ≤ (walkLevels ls t r).2 := by
  induction ls generalizing t r with
  | nil => rw [walkLevels_nil, totalDepth_nil]; linarith
  | cons l rest ih =>
    rw [walkLevels_cons, totalDepth_cons]
    have ha := hnn l (List.mem_cons_self l rest)
    have hnn' : ∀ x ∈ rest, 0 ≤ x.available_quantity :=
      fun x hx => hnn x (List.mem_cons_of_mem l hx)
    split_ifs with h
    · have := totalDepth_nonneg rest hnn'
      simp only
      linarith
    · have hmin : min l.available_quantity r ≤ l.available_quantity := min_le_left _ _
      have htr1 : min l.available_quantity r ≤ r := min_le_right _ _
      have := ih (t + min l.available_quantity r * l.price)
        (r - min l.available_quantity r) hnn' (by linarith)
      linarith

/-- The accumulated value never decreases along a walk when prices and
quantities are non-negative. -/
theorem walkLevels_fst_ge (ls : List PriceLevel) (t r : ℚ)
    (hp : ∀ l ∈ ls, 0 ≤ l.price ∧ 0 ≤ l.available_quantity) :
    t ≤ (walkLevels ls t r).1 := by
  induction ls generalizing t r with
  | nil => exact le_refl t
  | cons l rest ih =>
    rw [walkLevels_cons]
    split_ifs with h
    · exact le_refl t
    · obtain ⟨hp0, ha0⟩ := hp l (List.mem_cons_self l rest)
      have hp' : ∀ x ∈ rest, 0 ≤ x.price ∧ 0 ≤ x.available_quantity :=
        fun x hx => hp x (List.mem_cons_of_mem l hx)
      have htr0 : 0 ≤ min l.available_quantity r := le_min ha0 (lt_of_not_le h).le
      have hstep : t ≤ t + min l.available_quantity r * l.price := by
        have := mul_nonneg htr0 hp0
        linarith
      exact hstep.trans (ih _ _ hp')

/-- The accumulated value is monotone in both the accumulator and the
remaining quantity. -/
theorem walkLevels_fst_mono (ls : List PriceLevel) (t1 t2 r1 r2 : ℚ)
    (hp : ∀ l ∈ ls, 0 ≤ l.price ∧ 0 ≤ l.available_quantity)
    (ht : t1 ≤ t2) (hr : r1 ≤ r2) :
    (walkLevels ls t1 r1).1 ≤ (walkLevels ls t2 r2).1 := by
  induction ls generalizing t1 t2 r1 r2 with
  | nil => exact ht
  | cons l rest ih =>
    obtain ⟨hp0, ha0⟩ := hp l (List.mem_cons_self l rest)
    have hp' : ∀ x ∈ rest, 0 ≤ x.price ∧ 0 ≤ x.available_quantity :=
      fun x hx => hp x (List.mem_cons_of_mem l hx)
    rw [walkLevels_cons, walkLevels_cons]
    split_ifs with h1 h2 h2
    · exact ht
    · have htr0 : 0 ≤ min l.available_quantity r2 :=
        le_min ha0 (lt_of_not_le h2).le
      have hstep : t2 ≤ t2 + min l.available_quantity r2 * l.price := by
        have := mul_nonneg htr0 hp0
        linarith
      exact ht.trans (hstep.trans (walkLevels_fst_ge rest _ _ hp'))
    · exact absurd (hr.trans h2) h1
    · apply ih _ _ _ _ hp'
      · have hmm : min l.available_quantity r1 ≤ min l.available_quantity r2 :=
          min_le_min (le_refl _) hr
        have := mul_le_mul_of_nonneg_right hmm hp0
        linarith
      · rcases le_total l.available_quantity r1 with hc | hc
        · rw [min_eq_left hc, min_eq_left (hc.trans hr)]
          linarith
        · rw [min_eq_right hc]
          have := min_le_right l.available_quantity r2
          linarith

/-! ### Bridges: each source loop agrees with the generic walk once
every level normalizes -/

theorem coinbaseBuyLoop_eq_walk (orders : List CoinbaseRaw) (ls : List PriceLevel)
    (h : normalizeCoinbase orders = some ls) (t r : ℚ) :
    coinbaseBuyLoop orders t r = some (walkLevels ls t r) := by
  induction orders generalizing ls t r with
  | nil =>
    simp only [normalizeCoinbase, Option.some.injEq] at h
    subst h
    rfl
  | cons o rest ih =>
    obtain ⟨ps, ss, n⟩ := o
    cases hp : parseFloat ps with
    | none =>
      rw [normalizeCoinbase] at h
      simp only [normalizeCoinbaseLevel, hp] at h
      exact Option.noConfusion h
    | some price =>
      cases hs : parseFloat ss with
      | none =>
        rw [normalizeCoinbase] at h
        simp only [normalizeCoinbaseLevel, hp, hs] at h
        exact Option.noConfusion h
      | some size =>
        cases hrest : normalizeCoinbase rest with
        | none =>
          rw [normalizeCoinbase] at h
          simp only [normalizeCoinbaseLevel, hp, hs, hrest] at h
          exact Option.noConfusion h
        | some ls' =>
          rw [normalizeCoinbase] at h
          simp only [normalizeCoinbaseLevel, hp, hs, hrest, Option.some.injEq] at h
          subst h
          rw [coinbaseBuyLoop, walkLevels_cons]
          split_ifs with hr
          · rfl
          · simp only [hp, hs]
            exact ih ls' hrest _ _

theorem coinbaseSellLoop_eq_walk (orders : List CoinbaseRaw) (ls : List PriceLevel)
    (h : normalizeCoinbase orders = some ls) (t r : ℚ) :
    coinbaseSellLoop orders t r = some (walkLevels ls t r) := by
  induction orders generalizing ls t r with
  | nil =>
    simp only [normalizeCoinbase, Option.some.injEq] at h
    subst h
    rfl
  | cons o rest ih =>
    obtain ⟨ps, ss, n⟩ := o
    cases hp : parseFloat ps with
    | none =>
      rw [normalizeCoinbase] at h
      simp only [normalizeCoinbaseLevel, hp] at h
      exact Option.noConfusion h
    | some price =>
      cases hs : parseFloat ss with
      | none =>
        rw [normalizeCoinbase] at h
        simp only [normalizeCoinbaseLevel, hp, hs] at h
        exact Option.noConfusion h
      | some size =>
        cases hrest : normalizeCoinbase rest with
        | none =>
          rw [normalizeCoinbase] at h
          simp only [normalizeCoinbaseLevel, hp, hs, hrest] at h
          exact Option.noConfusion h
        | some ls' =>
          rw [normalizeCoinbase] at h
          simp only [normalizeCoinbaseLevel, hp, hs, hrest, Option.some.injEq] at h
          subst h
          rw [coinbaseSellLoop, walkLevels_cons]
          split_ifs with hr
          · rfl
          · simp only [hp, hs]
            exact ih ls' hrest _ _

theorem geminiBuyLoop_eq_walk (orders : List GeminiRaw) (ls : List PriceLevel)
    (h : normalizeGemini orders = some ls) (t r : ℚ) :
    geminiBuyLoop orders t r = some (walkLevels ls t r) := by
  induction orders generalizing ls t r with
  | nil =>
    simp only [normalizeGemini, Option.some.injEq] at h
    subst h
    rfl
  | cons o rest ih =>
    cases hp : parseFloat o.price with
    | none =>
      rw [normalizeGemini] at h
      simp only [normalizeGeminiLevel, hp] at h
      exact Option.noConfusion h
    | some price =>
      cases hs : parseFloat o.amount with
      | none =>
        rw [normalizeGemini] at h
        simp only [normalizeGeminiLevel, hp, hs] at h
        exact Option.noConfusion h
      | some available =>
        cases hrest : normalizeGemini rest with
        | none =>
          rw [normalizeGemini] at h
          simp only [normalizeGeminiLevel, hp, hs, hrest] at h
          exact Option.noConfusion h
        | some ls' =>
          rw [normalizeGemini] at h
          simp only [normalizeGeminiLevel, hp, hs, hrest, Option.some.injEq] at h
          subst h
          rw [geminiBuyLoop, walkLevels_cons]
          split_ifs with hr
          · rfl
          · simp only [hp, hs]
            exact ih ls' hrest _ _

theorem geminiSellLoop_eq_walk (orders : List GeminiRaw) (ls : List PriceLevel)
    (h : normalizeGemini orders = some ls) (t r : ℚ) :
    geminiSellLoop orders t r = some (walkLevels ls t r) := by
  induction orders generalizing ls t r with
  | nil =>
    simp only [normalizeGemini, Option.some.injEq] at h
    subst h
    rfl
  | cons o rest ih =>
    cases hp : parseFloat o.price with
    | none =>
      rw [normalizeGemini] at h
      simp only [normalizeGeminiLevel, hp] at h
      exact Option.noConfusion h
    | some price =>
      cases hs : parseFloat o.amount with
      | none =>
        rw [normalizeGemini] at h
        simp only [normalizeGeminiLevel, hp, hs] at h
        exact Option.noConfusion h
      | some available =>
        cases hrest : normalizeGemini rest with
        | none =>
          rw [normalizeGemini] at h
          simp only [normalizeGeminiLevel, hp, hs, hrest] at h
          exact Option.noConfusion h
        | some ls' =>
          rw [normalizeGemini] at h
          simp only [normalizeGeminiLevel, hp, hs, hrest, Option.some.injEq] at h
          subst h
          rw [geminiSellLoop, walkLevels_cons]
          split_ifs with hr
          · rfl
          · simp only [hp, hs]
            exact ih ls' hrest _ _

theorem calculate_coinbase_buy_cost_eq_fill (orders : List CoinbaseRaw)
    (ls : List PriceLevel) (q : ℚ) (h : normalizeCoinbase orders = some ls) :
    calculate_coinbase_buy_cost orders q =
      some ((fillLevels ls q).total_value, (fillLevels ls q).filled_quantity) := by
  rw [calculate_coinbase_buy_cost, coinbaseBuyLoop_eq_walk orders ls h 0 q]
  rfl

theorem calculate_coinbase_sell_revenue_eq_fill (orders : List CoinbaseRaw)
    (ls : List PriceLevel) (q : ℚ) (h : normalizeCoinbase orders = some ls) :
    calculate_coinbase_sell_revenue orders q =
      some ((fillLevels ls q).total_value, (fillLevels ls q).filled_quantity) := by
  rw [calculate_coinbase_sell_revenue, coinbaseSellLoop_eq_walk orders ls h 0 q]
  rfl

theorem calculate_gemini_buy_cost_eq_fill (orders : List GeminiRaw)
    (ls : List PriceLevel) (q : ℚ) (h : normalizeGemini orders = some ls) :
    calculate_gemini_buy_cost orders q =
      some ((fillLevels ls q).total_value, (fillLevels ls q).filled_quantity) := by
  rw [calculate_gemini_buy_cost, geminiBuyLoop_eq_walk orders ls h 0 q]
  rfl

theorem calculate_gemini_sell_revenue_eq_fill (orders : List GeminiRaw)
    (ls : List PriceLevel) (q : ℚ) (h : normalizeGemini orders = some ls) :
    calculate_gemini_sell_revenue orders q =
      some ((fillLevels ls q).total_value, (fillLevels ls q).filled_quantity) := by
  rw [calculate_gemini_sell_revenue, geminiSellLoop_eq_walk orders ls h 0 q]
  rfl

theorem fillLevels_filled (ls : List PriceLevel) (q : ℚ) :
    (fillLevels ls q).filled_quantity = q - (walkLevels ls 0 q).2 := rfl

theorem fillLevels_value (ls : List PriceLevel) (q : ℚ) :
    (fillLevels ls q).total_value = (walkLevels ls 0 q).1 := rfl

/-! ### Claims -/

/-- C1: For every non-negative requested quantity and every non-empty
order-book side whose levels have non-negative available quantities,
each of the four `calculate_*` functions returns a filled quantity `f`
with `0 ≤ f ≤ requested_quantity`. -/
theorem c1_filled_quantity_bounded
    (co : List CoinbaseRaw) (ge : List GeminiRaw)
    (lsco lsge : List PriceLevel) (q : ℚ)
    (hq : 0 ≤ q)
    (hco : normalizeCoinbase co = some lsco)
    (hge : normalizeGemini ge = some lsge)
    (hcoNE : co ≠ []) (hgeNE : ge ≠ [])
    (hcoQ : ∀ l ∈ lsco, 0 ≤ l.available_quantity)
    (hgeQ : ∀ l ∈ lsge, 0 ≤ l.available_quantity) :
    (∃ v f, calculate_coinbase_buy_cost co q = some (v, f) ∧ 0 ≤ f ∧ f ≤ q) ∧
    (∃ v f, calculate_coinbase_sell_revenue co q = some (v, f) ∧ 0 ≤ f ∧ f ≤ q) ∧
    (∃ v f, calculate_gemini_buy_cost ge q = some (v, f) ∧ 0 ≤ f ∧ f ≤ q) ∧
    (∃ v f, calculate_gemini_sell_revenue ge q = some (v, f) ∧ 0 ≤ f ∧ f ≤ q) := by
  have hcoB := walkLevels_snd_bounds lsco 0 q hcoQ hq
  have hgeB := walkLevels_snd_bounds lsge 0 q hgeQ hq
  refine ⟨⟨_, _, calculate_coinbase_buy_cost_eq_fill co lsco q hco, ?_, ?_⟩,
    ⟨_, _, calculate_coinbase_sell_revenue_eq_fill co lsco q hco, ?_, ?_⟩,
    ⟨_, _, calculate_gemini_buy_cost_eq_fill ge lsge q hge, ?_, ?_⟩,
    ⟨_, _, calculate_gemini_sell_revenue_eq_fill ge lsge q hge, ?_, ?_⟩⟩
  all_goals rw [fillLevels_filled]
  all_goals linarith [hcoB.1, hcoB.2, hgeB.1, hgeB.2]

/-- C1 witness: a one-level book on each exchange, quantity 1. -/
theorem c1_filled_quantity_bounded_witness :
    ∃ v f, calculate_coinbase_buy_cost [(("100"), ("2"), 1)] 1 = some (v, f) ∧
      0 ≤ f ∧ f ≤ 1 := by
  have h := c1_filled_quantity_bounded [(("100"), ("2"), 1)] [GeminiRaw.mk ("100") ("2")]
    [⟨100, 2⟩] [⟨100, 2⟩] 1 (by norm_num)
    (by
      simp +decide [normalizeCoinbase, normalizeCoinbaseLevel, parseFloat, parseNum,
        parseFrac, digitVal]
      norm_num)
    (by
      simp +decide [normalizeGemini, normalizeGeminiLevel, parseFloat, parseNum,
        parseFrac, digitVal]
      norm_num)
    (by simp) (by simp)
    (by intro l hl; fin_cases hl; norm_num)
    (by intro l hl; fin_cases hl; norm_num)
  exact h.1

/-- C2: If the total available depth of the normalized side is at least
the non-negative requested quantity, the walk fills it exactly, and
`calculate_coinbase_buy_cost` reports exactly that filled quantity. -/
theorem c2_exact_fill_when_depth_sufficient
    (orders : List CoinbaseRaw) (ls : List PriceLevel) (q : ℚ)
    (hq : 0 ≤ q) (hd : q ≤ totalDepth ls)
    (hco : normalizeCoinbase orders = some ls) :
    (fillLevels ls q).filled_quantity = q ∧
    ∃ v, calculate_coinbase_buy_cost orders q = some (v, q) := by
  have hz := walkLevels_snd_eq_zero ls 0 q hq hd
  have hfq : (fillLevels ls q).filled_quantity = q := by
    rw [fillLevels_filled, hz, sub_zero]
  refine ⟨hfq, (fillLevels ls q).total_value, ?_⟩
  rw [calculate_coinbase_buy_cost_eq_fill orders ls q hco, hfq]

/-- C2 witness: a book of depth 5 against a request of 3. -/
theorem c2_exact_fill_when_depth_sufficient_witness :
    ∃ v, calculate_coinbase_buy_cost [(("2"), ("5"), 1)] 3 = some (v, 3) := by
  have h := c2_exact_fill_when_depth_sufficient [(("2"), ("5"), 1)] [⟨2, 5⟩] 3
    (by norm_num)
    (by norm_num [totalDepth])
    (by
      simp +decide [normalizeCoinbase, normalizeCoinbaseLevel, parseFloat, parseNum,
        parseFrac, digitVal])
  exact h.2

/-- C3: With pre-validated numeric fields (every level normalizes), all
four `calculate_*` functions return normally for every requested
quantity — in particular also when depth is insufficient. -/
theorem c3_walker_raises_no_errors
    (co : List CoinbaseRaw) (ge : List GeminiRaw) (q : ℚ)
    (hco : (normalizeCoinbase co).isSome = true)
    (hge : (normalizeGemini ge).isSome = true) :
    (calculate_coinbase_buy_cost co q).isSome = true ∧
    (calculate_coinbase_sell_revenue co q).isSome = true ∧
    (calculate_gemini_buy_cost ge q).isSome = true ∧
    (calculate_gemini_sell_revenue ge q).isSome = true := by
  obtain ⟨lsco, hco'⟩ := Option.isSome_iff_exists.mp hco
  obtain ⟨lsge, hge'⟩ := Option.isSome_iff_exists.mp hge
  refine ⟨?_, ?_, ?_, ?_⟩
  · rw [calculate_coinbase_buy_cost_eq_fill co lsco q hco']; rfl
  · rw [calculate_coinbase_sell_revenue_eq_fill co lsco q hco']; rfl
  · rw [calculate_gemini_buy_cost_eq_fill ge lsge q hge']; rfl
  · rw [calculate_gemini_sell_revenue_eq_fill ge lsge q hge']; rfl

/-- C3 witness: a valid one-level book on each exchange with a request
of 7, far beyond the available depth. -/
theorem c3_walker_raises_no_errors_witness :
    (calculate_coinbase_buy_cost [(("100"), ("2"), 1)] 7).isSome = true := by
  have h := c3_walker_raises_no_errors [(("100"), ("2"), 1)]
    [GeminiRaw.mk ("100") ("2")] 7
    (by
      simp +decide [normalizeCoinbase, normalizeCoinbaseLevel, parseFloat, parseNum,
        parseFrac, digitVal])
    (by
      simp +decide [normalizeGemini, normalizeGeminiLevel, parseFloat, parseNum,
        parseFrac, digitVal])
  exact h.1

/-- C4: If the aggregate depth is below the non-negative requested
quantity, the walk under-fills (`filled_quantity < requested_quantity`)
and `calculate_coinbase_buy_cost` still returns normally with that
under-filled quantity; the one-level scenario from the spec returns
`FillResult 100 1` for a request of 5. -/
theorem c4_insufficient_depth_under_fills
    (orders : List CoinbaseRaw) (ls : List PriceLevel) (q : ℚ)
    (hq : 0 ≤ q)
    (hnn : ∀ l ∈ ls, 0 ≤ l.available_quantity)
    (hd : totalDepth ls < q)
    (hco : normalizeCoinbase orders = some ls) :
    (fillLevels ls q).filled_quantity < q ∧
    (∃ v f, calculate_coinbase_buy_cost orders q = some (v, f) ∧ f < q) ∧
    fillLevels [⟨100, 1⟩] 5 = ⟨100, 1⟩ := by
  have hge := walkLevels_snd_ge ls 0 q hnn hq
  have hlt : (fillLevels ls q).filled_quantity < q := by
    rw [fillLevels_filled]
    linarith
  refine ⟨hlt, ⟨_, _, calculate_coinbase_buy_cost_eq_fill orders ls q hco, hlt⟩, ?_⟩
  norm_num [fillLevels, walkLevels]

/-- C4 witness: the spec's scenario, depth 1 against a request of 5. -/
theorem c4_insufficient_depth_under_fills_witness :
    ∃ v f, calculate_coinbase_buy_cost [(("100"), ("1"), 1)] 5 = some (v, f) ∧ f < 5 := by
  have h := c4_insufficient_depth_under_fills [(("100"), ("1"), 1)] [⟨100, 1⟩] 5
    (by norm_num)
    (by intro l hl; fin_cases hl; norm_num)
    (by norm_num [totalDepth])
    (by
      simp +decide [normalizeCoinbase, normalizeCoinbaseLevel, parseFloat, parseNum,
        parseFrac, digitVal]
      norm_num)
  exact h.2.1

/-- C5: Holding a book with non-negative prices and quantities fixed,
`total_value` is monotonically non-decreasing in the requested
quantity. -/
theorem c5_total_value_monotone (ls : List PriceLevel) (q1 q2 : ℚ)
    (hl : ∀ l ∈ ls, 0 ≤ l.price ∧ 0 ≤ l.available_quantity)
    (h : q1 ≤ q2) :
    (fillLevels ls q1).total_value ≤ (fillLevels ls q2).total_value := by
  rw [fillLevels_value, fillLevels_value]
  exact walkLevels_fst_mono ls 0 0 q1 q2 hl (le_refl 0) h

/-- C5 witness: a two-level book at requests 1 and 3. -/
theorem c5_total_value_monotone_witness :
    (fillLevels [⟨100, 2⟩, ⟨110, 3⟩] 1).total_value ≤
      (fillLevels [⟨100, 2⟩, ⟨110, 3⟩] 3).total_value := by
  exact c5_total_value_monotone [⟨100, 2⟩, ⟨110, 3⟩] 1 3
    (by intro l hl; fin_cases hl <;> constructor <;> norm_num)
    (by norm_num)

/-- C6: For any positive requested quantity, walking an empty side
yields total value 0 and filled quantity 0, through the generic walk
and through each of the four source functions. -/
theorem c6_empty_book (q : ℚ) (hq : 0 < q) :
    fillLevels [] q = ⟨0, 0⟩ ∧
    calculate_coinbase_buy_cost [] q = some (0, 0) ∧
    calculate_coinbase_sell_revenue [] q = some (0, 0) ∧
    calculate_gemini_buy_cost [] q = some (0, 0) ∧
    calculate_gemini_sell_revenue [] q = some (0, 0) := by
  refine ⟨?_, ?_, ?_, ?_, ?_⟩ <;>
    simp [fillLevels, walkLevels, calculate_coinbase_buy_cost, coinbaseBuyLoop,
      calculate_coinbase_sell_revenue, coinbaseSellLoop, calculate_gemini_buy_cost,
      geminiBuyLoop, calculate_gemini_sell_revenue, geminiSellLoop]

/-- C6 witness: the empty book at quantity 10 (the program's trade size). -/
theorem c6_empty_book_witness :
    fillLevels [] 10 = ⟨0, 0⟩ ∧ calculate_coinbase_buy_cost [] 10 = some (0, 0) := by
  have h := c6_empty_book 10 (by norm_num)
  exact ⟨h.1, h.2.1⟩

/-- C7: On levels `[(100, 2), (110, 3)]` with requested quantity 4 the
walk consumes 2 units at 100 and 2 at 110, returning total value 420
and filled quantity 4; `calculate_coinbase_buy_cost` returns the same
on the corresponding raw triples. -/
theorem c7_scenario_two_levels :
    fillLevels [⟨100, 2⟩, ⟨110, 3⟩] 4 = ⟨420, 4⟩ ∧
    calculate_coinbase_buy_cost [(("100"), ("2"), 1), (("110"), ("3"), 1)] 4 =
      some (420, 4) := by
  constructor
  · norm_num [fillLevels, walkLevels]
  · simp +decide [calculate_coinbase_buy_cost, coinbaseBuyLoop, parseFloat, parseNum,
      parseFrac, digitVal]
    norm_num

/-- C8: Each Coinbase raw triple `(price_string, size_string, count)`
normalizes to price `parse(price_string)` and available quantity
`parse(size_string) * count`; the triple `("100.5", "2.0", 3)`
normalizes to price `100.5` and available quantity `6.0`. -/
theorem c8_coinbase_normalization (ps ss : String) (n : ℤ) (p s : ℚ)
    (hp : parseFloat ps = some p) (hs : parseFloat ss = some s) :
    normalizeCoinbaseLevel (ps, ss, n) = some ⟨p, s * (n : ℚ)⟩ ∧
    normalizeCoinbaseLevel (("100.5"), ("2.0"), 3) =
      some ⟨(100.5 : ℚ), (6.0 : ℚ)⟩ := by
  constructor
  · simp [normalizeCoinbaseLevel, hp, hs]
  · simp +decide [normalizeCoinbaseLevel, parseFloat, parseNum, parseFrac, digitVal]
    norm_num

/-- C8 witness: the spec's round-trip triple itself. -/
theorem c8_coinbase_normalization_witness :
    normalizeCoinbaseLevel (("100.5"), ("2.0"), 3) =
      some ⟨(100.5 : ℚ), (6.0 : ℚ)⟩ := by
  have h := c8_coinbase_normalization ("100.5") ("2.0") 3 (201 / 2) 2
    (by
      simp +decide [parseFloat, parseNum, parseFrac, digitVal]
      norm_num)
    (by simp +decide [parseFloat, parseNum, parseFrac, digitVal])
  exact h.2

/-- C9: Each Gemini raw record normalizes to price `parse(price)` and
available quantity `parse(amount)` directly; the record
`{price: "100.5", amount: "3.2"}` normalizes to price `100.5` and
available quantity `3.2`. -/
theorem c9_gemini_normalization (o : GeminiRaw) (p a : ℚ)
    (hp : parseFloat o.price = some p) (ha : parseFloat o.amount = some a) :
    normalizeGeminiLevel o = some ⟨p, a⟩ ∧
    normalizeGeminiLevel (GeminiRaw.mk ("100.5") ("3.2")) =
      some ⟨(100.5 : ℚ), (3.2 : ℚ)⟩ := by
  constructor
  · simp [normalizeGeminiLevel, hp, ha]
  · simp +decide [normalizeGeminiLevel, parseFloat, parseNum, parseFrac, digitVal]
    norm_num

/-- C9 witness: the spec's round-trip record itself. -/
theorem c9_gemini_normalization_witness :
    normalizeGeminiLevel (GeminiRaw.mk ("100.5") ("3.2")) =
      some ⟨(100.5 : ℚ), (3.2 : ℚ)⟩ := by
  have h := c9_gemini_normalization (GeminiRaw.mk ("100.5") ("3.2")) (201 / 2) (16 / 5)
    (by
      simp +decide [parseFloat, parseNum, parseFrac, digitVal]
      norm_num)
    (by
      simp +decide [parseFloat, parseNum, parseFrac, digitVal]
      norm_num)
  exact h.2

/-- C10 counterexample: the claim says a non-`KeyboardInterrupt`
exception in a cycle is non-fatal and the loop continues with
subsequent cycles.  With an error in the first cycle and an available
second cycle, the source loop logs the error and runs zero further
cycles. -/
theorem c10_counterexample :
    mainLoop [CycleOutcome.otherError, CycleOutcome.ok] =
      (LoopExit.errorLogged, 0) ∧
    ¬ 1 ≤ (mainLoop [CycleOutcome.otherError, CycleOutcome.ok]).2 := by
  decide

/-- C10 (amended): a non-`KeyboardInterrupt` exception raised during a
cycle is caught and logged (the process does not re-raise it), but the
`try` block wraps the whole `while` loop, so the loop terminates: no
subsequent cycle runs, whatever would have followed. -/
theorem c10_error_logged_but_loop_terminates (rest : List CycleOutcome) :
    mainLoop (CycleOutcome.otherError :: rest) = (LoopExit.errorLogged, 0) := rfl
